import Mathlib

/-!
Verification of the row-indexing and record-scanning layer of the
earthboundkid/csv Go package (fieldreader.go), as a shallow embedding.

The external `encoding/csv` tokenizer is modelled abstractly as the sequence
of records it will deliver followed by its terminal signal (clean `io.EOF`
or a read error).  Go maps are modelled as association lists with
overwrite-on-insert, Go runtime panics as an explicit `GoPanic` outcome,
and the lazy `iter.Seq2` generators as the full list of their yields for a
consumer that never stops early.
-/

set_option maxHeartbeats 1000000

namespace CsvSpec

/-- Errors returned by the underlying tokenizer, modelled abstractly. -/
abbrev GoError := String

/-- How the token stream ends: clean end-of-stream (`io.EOF`) or a read error. -/
inductive TermSig where
  | eof : TermSig
  | fail : GoError → TermSig
deriving DecidableEq

/-- The external `csv.Reader` tokenizer, abstracted to the records it will
produce in order, followed by its terminal signal. -/
structure TokStream where
  recs : List (List String)
  fin : TermSig
deriving DecidableEq

/-- Go runtime panics the embedded code can raise. -/
inductive GoPanic where
  | indexOutOfRange : GoPanic
  | nilPointerDeref : GoPanic
  | message : String → GoPanic
deriving DecidableEq

/-- Assignment `m[k] = v` on a Go map, modelled as an association list with
overwrite-on-insert. -/
def mapSet (m : List (String × Nat)) (k : String) (v : Nat) : List (String × Nat) :=
  match m with
  | [] => [(k, v)]
  | (k1, v1) :: rest => if k1 = k then (k, v) :: rest else (k1, v1) :: mapSet rest k v

/-- Lookup `m[k]` with its ok flag, modelled as `Option`. -/
def mapGet (m : List (String × Nat)) (k : String) : Option Nat :=
  match m with
  | [] => none
  | (k1, v1) :: rest => if k1 = k then some v1 else mapGet rest k

/-- The loop `for n, field := range fieldnames { r.idx[field] = n }`,
generalised over the position of the first name. -/
def buildIdxFrom (m : List (String × Nat)) (n : Nat) : List String → List (String × Nat)
  | [] => m
  | field :: rest => buildIdxFrom (mapSet m field n) (n + 1) rest

/-- The field-name index built by `Options.Rows` from the resolved names. -/
def buildIdx (fieldnames : List String) : List (String × Nat) :=
  buildIdxFrom [] 0 fieldnames

/-- `Row`: the shared name→position index plus the current raw record. -/
structure Row where
  idx : List (String × Nat)
  row : List String
deriving DecidableEq

/-- One yield of the `iter.Seq2[*Row, error]` sequence: either a row with a
nil error, or a nil row with a non-nil error. -/
inductive RowsItem where
  | row : Row → RowsItem
  | fail : GoError → RowsItem
deriving DecidableEq

/-- `Options`: tokenizer configuration plus the optional explicit field
names.  The `Reader` field is the byte stream the tokenizer consumes; it is
modelled by the `TokStream` passed to `Rows`.  `Comma`, `Comment`,
`LazyQuotes` and `TrimLeadingSpace` only configure the external tokenizer. -/
structure Options where
  Comma : Int
  Comment : Int
  LazyQuotes : Bool
  TrimLeadingSpace : Bool
  FieldNames : Option (List String)
deriving DecidableEq

/-- The main loop of `Options.Rows`: read a record; `io.EOF` ends the
sequence silently; any other error is yielded once and ends the sequence;
otherwise the shared `Row` is refreshed with the record and yielded. -/
def rowsLoop (idx : List (String × Nat)) : List (List String) → TermSig → List RowsItem
  | [], TermSig.eof => []
  | [], TermSig.fail e => [RowsItem.fail e]
  | rcd :: rest, fin => RowsItem.row ⟨idx, rcd⟩ :: rowsLoop idx rest fin

/-- `Options.Rows` as the full sequence of `(row, error)` yields for a
consumer that never stops early.  When `FieldNames` is nil, the first record
read serves as the header; `io.EOF` on that first read produces the empty
sequence, and any other first-read error is yielded as the sole element. -/
def Options.Rows (o : Options) (ts : TokStream) : List RowsItem :=
  match o.FieldNames with
  | some names => rowsLoop (buildIdx names) ts.recs ts.fin
  | none =>
    match ts.recs, ts.fin with
    | [], TermSig.eof => []
    | [], TermSig.fail e => [RowsItem.fail e]
    | header :: rest, fin => rowsLoop (buildIdx header) rest fin

/-- `Options.Rows` together with the `Options` value as the call leaves it:
the body of `Rows` assigns only to locals (`cr`, `fieldnames`, `r`, `row`,
`err`) and never to a field of `o`, so the resulting `Options` is `o`
itself. -/
def Options.RowsSt (o : Options) (ts : TokStream) : List RowsItem × Options :=
  (o.Rows ts, o)

/-- `Row.Field`: index lookup, then `r.row[idx]`.  A name missing from the
index yields the empty string; a position beyond the record's end is a Go
index-out-of-range panic. -/
def Row.Field (r : Row) (fieldname : String) : Except GoPanic String :=
  match mapGet r.idx fieldname with
  | some i =>
    match r.row[i]? with
    | some v => Except.ok v
    | none => Except.error GoPanic.indexOutOfRange
  | none => Except.ok ""

/-- The loop of `Row.Fields` / `FieldReader.Fields` over the index entries. -/
def fieldsLoop (row : List String) :
    List (String × Nat) → List (String × String) → Except GoPanic (List (String × String))
  | [], acc => Except.ok acc
  | (k, i) :: rest, acc =>
    match row[i]? with
    | some v => fieldsLoop row rest (acc ++ [(k, v)])
    | none => Except.error GoPanic.indexOutOfRange

/-- `Row.Fields`: materialise the name→value mapping for the current row. -/
def Row.Fields (r : Row) : Except GoPanic (List (String × String)) :=
  fieldsLoop r.row r.idx []

/-- The loop of `Options.ReadAll` over the yields of `o.Rows()`: a non-nil
error returns `(nil, err)` alone, dropping the accumulated rows. -/
def readAllLoop :
    List RowsItem → List (List (String × String)) →
      Except GoPanic (Except GoError (List (List (String × String))))
  | [], acc => Except.ok (Except.ok acc)
  | RowsItem.fail e :: _, _ => Except.ok (Except.error e)
  | RowsItem.row r :: rest, acc =>
    match r.Fields with
    | Except.error p => Except.error p
    | Except.ok m => readAllLoop rest (acc ++ [m])

/-- `Options.ReadAll`: consume `o.Rows()` eagerly into a slice of maps. -/
def Options.ReadAll (o : Options) (ts : TokStream) :
    Except GoPanic (Except GoError (List (List (String × String)))) :=
  readAllLoop (o.Rows ts) []

/-- One struct field as seen through `reflect`: whether it is exported,
whether its type kind is `String`, its `csv` struct tag (`""` when absent),
and its current string value. -/
structure SField where
  exported : Bool
  isString : Bool
  tag : String
  value : String
deriving DecidableEq

/-- The shape of the `any` value passed to `Row.Scan` / `buildFieldIdx`:
a pointer to a struct (with its fields), a pointer to something else, or a
non-pointer. -/
inductive GoValue where
  | nonPtr : GoValue
  | ptrToNonStruct : GoValue
  | ptrToStruct : List SField → GoValue
deriving DecidableEq

/-- The field loop of `Row.buildFieldIdx`, over the struct's fields.  The
receiver is `Option Row` because `Scan` calls it with the nil `*Row` yielded
on a read error: touching `r.idx` through that nil receiver is a Go
nil-pointer-dereference panic. -/
def buildFieldIdxFields (ro : Option Row) : List SField → Except GoPanic (List Int)
  | [] => Except.ok []
  | fld :: rest =>
    if fld.isString = false ∨ fld.exported = false then
      match buildFieldIdxFields ro rest with
      | Except.error p => Except.error p
      | Except.ok fi => Except.ok (-1 :: fi)
    else if fld.tag = "" then
      match buildFieldIdxFields ro rest with
      | Except.error p => Except.error p
      | Except.ok fi => Except.ok (-1 :: fi)
    else
      match ro with
      | none => Except.error GoPanic.nilPointerDeref
      | some r =>
        match mapGet r.idx fld.tag with
        | some keyIdx =>
          match buildFieldIdxFields ro rest with
          | Except.error p => Except.error p
          | Except.ok fi => Except.ok ((keyIdx : Int) :: fi)
        | none =>
          match buildFieldIdxFields ro rest with
          | Except.error p => Except.error p
          | Except.ok fi => Except.ok (-1 :: fi)

/-- `Row.buildFieldIdx`: the kind checks (panicking with the source's message
for a non-pointer or non-struct target), then the field loop. -/
def buildFieldIdxV (ro : Option Row) (v : GoValue) : Except GoPanic (List SField × List Int) :=
  match v with
  | GoValue.nonPtr => Except.error (GoPanic.message "must scan into pointer to struct")
  | GoValue.ptrToNonStruct => Except.error (GoPanic.message "must scan into pointer to struct")
  | GoValue.ptrToStruct s =>
    match buildFieldIdxFields ro s with
    | Except.error p => Except.error p
    | Except.ok fi => Except.ok (s, fi)

/-- The loop of `Row.scan` over `fieldIdx`, walking the struct fields in
parallel: a `-1` entry is skipped, otherwise the field's value is set to
`r.row[idx]` (out of range panics).  `fieldIdx` longer than the field list
would be a reflect index-out-of-range panic (unreachable from the API). -/
def rowScanGo (row : List String) : List SField → List Int → Except GoPanic (List SField)
  | s, [] => Except.ok s
  | [], _ :: _ => Except.error GoPanic.indexOutOfRange
  | fld :: s, c :: fi =>
    if c = -1 then
      match rowScanGo row s fi with
      | Except.error p => Except.error p
      | Except.ok out => Except.ok (fld :: out)
    else
      match row[c.toNat]? with
      | none => Except.error GoPanic.indexOutOfRange
      | some v =>
        match rowScanGo row s fi with
        | Except.error p => Except.error p
        | Except.ok out => Except.ok ({ fld with value := v } :: out)

/-- `Row.scan`: apply a binding plan to the current record. -/
def Row.scan (r : Row) (s : List SField) (fieldIdx : List Int) : Except GoPanic (List SField) :=
  rowScanGo r.row s fieldIdx

/-- `Row.Scan`: build the binding plan for `v`, then apply it. -/
def Row.Scan (r : Row) (v : GoValue) : Except GoPanic (List SField) :=
  match buildFieldIdxV (some r) v with
  | Except.error p => Except.error p
  | Except.ok (s, fi) => r.scan s fi

/-- The loop of the streaming `Scan` after the binding plan has been built:
each yield is the error for that iteration paired with the scanned value as
it then stands. -/
def scanItemsSome (fi : List Int) (s : List SField) :
    List RowsItem → Except GoPanic (List (Option GoError × List SField))
  | [] => Except.ok []
  | RowsItem.fail e :: _ => Except.ok [(some e, s)]
  | RowsItem.row r :: rest =>
    match r.scan s fi with
    | Except.error p => Except.error p
    | Except.ok s1 =>
      match scanItemsSome fi s1 rest with
      | Except.error p => Except.error p
      | Except.ok pairs => Except.ok ((none, s1) :: pairs)

/-- The first iteration of the streaming `Scan`: `fieldIdx` is still nil, so
the binding plan is built from the first yield — before the error of that
yield is looked at, so a first-yield error builds the plan from the nil
`*Row`. -/
def scanItemsNone (v : GoValue) : List RowsItem → Except GoPanic (List (Option GoError × List SField))
  | [] => Except.ok []
  | item :: rest =>
    match buildFieldIdxV (match item with | RowsItem.row r => some r | RowsItem.fail _ => none) v with
    | Except.error p => Except.error p
    | Except.ok (s, fi) =>
      match item with
      | RowsItem.fail e => Except.ok [(some e, s)]
      | RowsItem.row r =>
        match r.scan s fi with
        | Except.error p => Except.error p
        | Except.ok s1 =>
          match scanItemsSome fi s1 rest with
          | Except.error p => Except.error p
          | Except.ok pairs => Except.ok ((none, s1) :: pairs)

/-- The streaming `Scan(o, v)` entry point: iterate over `o.Rows()`, build
the binding plan lazily on the first yield, scan each row into the record,
and yield the per-iteration errors. -/
def Options.Scan (o : Options) (ts : TokStream) (v : GoValue) :
    Except GoPanic (List (Option GoError × List SField)) :=
  scanItemsNone v (o.Rows ts)

/-- The collection loop of `ScanAll`: append a snapshot of the record after
each nil-error iteration; a non-nil error returns `(nil, err)` alone. -/
def scanAllCollect : List (Option GoError × List SField) → Except GoError (List (List SField))
  | [] => Except.ok []
  | (some e, _) :: _ => Except.error e
  | (none, s) :: rest =>
    match scanAllCollect rest with
    | Except.error e => Except.error e
    | Except.ok l => Except.ok (s :: l)

/-- `ScanAll(o)`: drive the streaming `Scan` over a single record value
(starting from its zero value `s0`) and collect the scanned snapshots. -/
def ScanAll (o : Options) (ts : TokStream) (s0 : List SField) :
    Except GoPanic (Except GoError (List (List SField))) :=
  match Options.Scan o ts (GoValue.ptrToStruct s0) with
  | Except.error p => Except.error p
  | Except.ok pairs => Except.ok (scanAllCollect pairs)

/-- Errors from the tokenizer's `Read`, keeping `io.EOF` distinguishable. -/
inductive ReadErr where
  | eof : ReadErr
  | other : GoError → ReadErr
deriving DecidableEq

/-- One `Read` call on the tokenizer: pop the next record, or report the
terminal signal (`io.EOF` or the read error) leaving the stream exhausted. -/
def tokRead : TokStream → Except ReadErr (List String) × TokStream
  | ⟨rcd :: rest, fin⟩ => (Except.ok rcd, ⟨rest, fin⟩)
  | ⟨[], TermSig.eof⟩ => (Except.error ReadErr.eof, ⟨[], TermSig.eof⟩)
  | ⟨[], TermSig.fail e⟩ => (Except.error (ReadErr.other e), ⟨[], TermSig.fail e⟩)

/-- The legacy `FieldReader` state: optional field names, the lazily built
index, the current record, and the sticky error.  The configuration fields
(`Comma`, `Comment`, `LazyQuotes`, `TrimLeadingSpace`) only configure the
external tokenizer. -/
structure FieldReader where
  Comma : Int
  Comment : Int
  LazyQuotes : Bool
  TrimLeadingSpace : Bool
  FieldNames : Option (List String)
  idx : Option (List (String × Nat))
  row : List String
  err : Option ReadErr
deriving DecidableEq

/-- `NewFieldReader`: fresh state over a reader, delimiter defaulted to `,`. -/
def NewFieldReader : FieldReader :=
  { Comma := 44, Comment := 0, LazyQuotes := false, TrimLeadingSpace := false,
    FieldNames := none, idx := none, row := [], err := none }

/-- The tail of `FieldReader.Scan` once `FieldNames` is resolved: build the
index if not yet built, then read the next data record. -/
def frScanAfterNames (f : FieldReader) (ts : TokStream) : Bool × FieldReader × TokStream :=
  let f1 :=
    match f.idx with
    | none => { f with idx := some (buildIdx (f.FieldNames.getD [])) }
    | some _ => f
  match tokRead ts with
  | (Except.ok rcd, ts1) => (true, { f1 with row := rcd, err := none }, ts1)
  | (Except.error e, ts1) => (false, { f1 with row := [], err := some e }, ts1)

/-- `FieldReader.Scan`: return false once an error is sticky; read the
header first if `FieldNames` is nil (an error there is recorded and stops
the scan before the index is built); then read the next data record. -/
def FieldReader.Scan (f : FieldReader) (ts : TokStream) : Bool × FieldReader × TokStream :=
  if f.err.isSome then (false, f, ts)
  else
    match f.FieldNames with
    | some _ => frScanAfterNames f ts
    | none =>
      match tokRead ts with
      | (Except.ok names, ts1) => frScanAfterNames { f with FieldNames := some names } ts1
      | (Except.error e, ts1) => (false, { f with err := some e }, ts1)

/-- `FieldReader.Fields`: the name→value map for the current record. -/
def FieldReader.Fields (f : FieldReader) : Except GoPanic (List (String × String)) :=
  fieldsLoop f.row (f.idx.getD []) []

/-- `FieldReader.Err`: the sticky error, with `io.EOF` reported as nil. -/
def FieldReader.Err (f : FieldReader) : Option GoError :=
  match f.err with
  | some (ReadErr.other e) => some e
  | _ => none

/-- A successful `FieldReader.Scan` consumed at least one record. -/
theorem frScanAfterNames_true_shrinks (f f1 : FieldReader) (ts ts1 : TokStream)
    (h : frScanAfterNames f ts = (true, f1, ts1)) : ts1.recs.length < ts.recs.length := by
  unfold frScanAfterNames at h
  rcases ts with ⟨recs, fin⟩
  cases recs with
  | nil =>
    cases fin <;> simp [tokRead] at h
  | cons rcd rest =>
    simp [tokRead] at h
    rw [← h.2]
    simp

/-- A `FieldReader.Scan` returning true strictly shrank the token stream. -/
theorem frScan_true_shrinks (f f1 : FieldReader) (ts ts1 : TokStream)
    (h : FieldReader.Scan f ts = (true, f1, ts1)) : ts1.recs.length < ts.recs.length := by
  unfold FieldReader.Scan at h
  by_cases herr : f.err.isSome
  · simp [herr] at h
  · simp [herr] at h
    cases hfn : f.FieldNames with
    | some names =>
      rw [hfn] at h
      exact frScanAfterNames_true_shrinks _ _ _ _ h
    | none =>
      rw [hfn] at h
      rcases ts with ⟨recs, fin⟩
      cases recs with
      | nil => cases fin <;> simp [tokRead] at h
      | cons rcd rest =>
        simp [tokRead] at h
        have := frScanAfterNames_true_shrinks _ _ _ _ h
        simp at this ⊢
        omega

/-- The loop of `FieldReader.ReadAll`: `for f.Scan() { rows append }`. -/
def frReadAllLoop (f : FieldReader) (ts : TokStream) (acc : List (List (String × String))) :
    Except GoPanic (List (List (String × String))) × FieldReader × TokStream :=
  match h : FieldReader.Scan f ts with
  | (true, f1, ts1) =>
    match f1.Fields with
    | Except.error p => (Except.error p, f1, ts1)
    | Except.ok m => frReadAllLoop f1 ts1 (acc ++ [m])
  | (false, f1, ts1) => (Except.ok acc, f1, ts1)
termination_by ts.recs.length
decreasing_by exact frScan_true_shrinks _ _ _ _ h

/-- `FieldReader.ReadAll`: scan every row, then return the accumulated maps
together with `f.Err()` — the rows read before a failure are returned
alongside the error. -/
def FieldReader.ReadAll (f : FieldReader) (ts : TokStream) :
    Except GoPanic (List (List (String × String)) × Option GoError) :=
  match frReadAllLoop f ts [] with
  | (Except.error p, _, _) => Except.error p
  | (Except.ok rows, f1, _) => Except.ok (rows, f1.Err)

/-- With a clean end-of-stream, the read loop yields one row per record. -/
theorem rowsLoop_eof (idx : List (String × Nat)) (recs : List (List String)) :
    rowsLoop idx recs TermSig.eof = recs.map (fun rcd => RowsItem.row ⟨idx, rcd⟩) := by
  induction recs with
  | nil => rfl
  | cons rcd rest ih => simp [rowsLoop, ih]

/-- With a failing terminal, the read loop yields every record then the error. -/
theorem rowsLoop_fail (idx : List (String × Nat)) (recs : List (List String)) (e : GoError) :
    rowsLoop idx recs (TermSig.fail e) =
      recs.map (fun rcd => RowsItem.row ⟨idx, rcd⟩) ++ [RowsItem.fail e] := by
  induction recs with
  | nil => rfl
  | cons rcd rest ih => simp [rowsLoop, ih]

/-- C1: with no explicit field names, a well-formed stream of a header plus N
data records followed by clean end-of-stream yields exactly one (Row, nil)
pair per data record, in source order, with no trailing error; and a stream
whose first (header) read signals end-of-stream yields nothing at all. -/
theorem rows_header_stream (o : Options) (header : List String) (data : List (List String))
    (h : o.FieldNames = none) :
    o.Rows ⟨header :: data, TermSig.eof⟩ =
        data.map (fun rcd => RowsItem.row ⟨buildIdx header, rcd⟩) ∧
      o.Rows ⟨[], TermSig.eof⟩ = [] := by
  constructor
  · show Options.Rows o ⟨header :: data, TermSig.eof⟩ = _
    unfold Options.Rows
    rw [h]
    exact rowsLoop_eof _ _
  · show Options.Rows o ⟨[], TermSig.eof⟩ = _
    unfold Options.Rows
    rw [h]

/-- Witness for `rows_header_stream` at a concrete two-data-row stream. -/
theorem rows_header_stream_witness :
    Options.Rows
        { Comma := 44, Comment := 0, LazyQuotes := false, TrimLeadingSpace := false,
          FieldNames := none }
        ⟨[["a", "b"], ["1", "2"], ["3", "4"]], TermSig.eof⟩ =
      [["1", "2"], ["3", "4"]].map
        (fun rcd => RowsItem.row ⟨buildIdx ["a", "b"], rcd⟩) :=
  (rows_header_stream _ ["a", "b"] [["1", "2"], ["3", "4"]] rfl).1

/-- C6: a tokenizer failure other than end-of-stream — on the header read or
on any later data-row read — is yielded exactly once, after the rows that
preceded it, and the sequence ends immediately with no further elements. -/
theorem rows_error_once (o : Options) (names header : List String)
    (recs : List (List String)) (e : GoError) :
    (o.FieldNames = some names →
      o.Rows ⟨recs, TermSig.fail e⟩ =
        recs.map (fun rcd => RowsItem.row ⟨buildIdx names, rcd⟩) ++ [RowsItem.fail e]) ∧
    (o.FieldNames = none →
      o.Rows ⟨header :: recs, TermSig.fail e⟩ =
        recs.map (fun rcd => RowsItem.row ⟨buildIdx header, rcd⟩) ++ [RowsItem.fail e]) ∧
    (o.FieldNames = none → o.Rows ⟨[], TermSig.fail e⟩ = [RowsItem.fail e]) := by
  refine ⟨fun h => ?_, fun h => ?_, fun h => ?_⟩
  · show Options.Rows o ⟨recs, TermSig.fail e⟩ = _
    unfold Options.Rows
    rw [h]
    exact rowsLoop_fail _ _ _
  · show Options.Rows o ⟨header :: recs, TermSig.fail e⟩ = _
    unfold Options.Rows
    rw [h]
    exact rowsLoop_fail _ _ _
  · show Options.Rows o ⟨[], TermSig.fail e⟩ = _
    unfold Options.Rows
    rw [h]

/-- Witness for `rows_error_once`: a failure after one good data row. -/
theorem rows_error_once_witness :
    Options.Rows
        { Comma := 44, Comment := 0, LazyQuotes := false, TrimLeadingSpace := false,
          FieldNames := none }
        ⟨[["a", "b"], ["1", "2"]], TermSig.fail "parse failure"⟩ =
      [["1", "2"]].map (fun rcd => RowsItem.row ⟨buildIdx ["a", "b"], rcd⟩) ++
        [RowsItem.fail "parse failure"] :=
  (rows_error_once _ [] ["a", "b"] [["1", "2"]] "parse failure").2.1 rfl

/-- Setting a key makes it present with the new value. -/
theorem mapGet_mapSet_self (m : List (String × Nat)) (k : String) (v : Nat) :
    mapGet (mapSet m k v) k = some v := by
  induction m with
  | nil => simp [mapSet, mapGet]
  | cons p rest ih =>
    rcases p with ⟨k1, v1⟩
    by_cases hk : k1 = k
    · simp [mapSet, hk, mapGet]
    · simp [mapSet, hk, mapGet, ih]

/-- Setting a key leaves lookups of other keys unchanged. -/
theorem mapGet_mapSet_ne (m : List (String × Nat)) (k : String) (v : Nat) (k1 : String)
    (h : k1 ≠ k) : mapGet (mapSet m k v) k1 = mapGet m k1 := by
  induction m with
  | nil =>
    have hne : ¬(k = k1) := fun hh => h hh.symm
    simp [mapSet, mapGet, hne]
  | cons p rest ih =>
    rcases p with ⟨k2, v2⟩
    by_cases hk : k2 = k
    · subst hk
      have hne : ¬(k2 = k1) := fun hh => h hh.symm
      simp [mapSet, mapGet, hne]
    · simp only [mapSet, if_neg hk, mapGet]
      by_cases hk1 : k2 = k1
      · simp [hk1]
      · simp [hk1, ih]

/-- Names not in the remaining list are untouched by the index-building loop. -/
theorem buildIdxFrom_not_mem (names : List String) (m : List (String × Nat)) (n : Nat)
    (name : String) (h : name ∉ names) :
    mapGet (buildIdxFrom m n names) name = mapGet m name := by
  induction names generalizing m n with
  | nil => rfl
  | cons f rest ih =>
    simp only [List.mem_cons, not_or] at h
    rw [buildIdxFrom, ih _ _ h.2, mapGet_mapSet_ne _ _ _ _ h.1]

/-- A name's final index is the position of its last occurrence, offset by
the loop's starting position. -/
theorem buildIdxFrom_last (names : List String) (m : List (String × Nat)) (n : Nat) (i : Nat)
    (hi : i < names.length)
    (h : ∀ j (hj : j < names.length), i < j → names.get ⟨j, hj⟩ ≠ names.get ⟨i, hi⟩) :
    mapGet (buildIdxFrom m n names) (names.get ⟨i, hi⟩) = some (n + i) := by
  induction names generalizing m n i with
  | nil => simp at hi
  | cons f rest ih =>
    cases i with
    | zero =>
      have hf : f ∉ rest := by
        intro hmem
        obtain ⟨⟨j, hj⟩, hjf⟩ := List.mem_iff_get.mp hmem
        exact h (j + 1) (by simpa using Nat.succ_lt_succ hj) (Nat.succ_pos j) (by simpa using hjf)
      rw [buildIdxFrom]
      have hget : (f :: rest).get ⟨0, hi⟩ = f := rfl
      rw [hget, buildIdxFrom_not_mem rest _ _ f hf, mapGet_mapSet_self]
      rfl
    | succ i1 =>
      have hi1 : i1 < rest.length := by simpa using hi
      have h1 : ∀ j (hj : j < rest.length), i1 < j →
          rest.get ⟨j, hj⟩ ≠ rest.get ⟨i1, hi1⟩ := by
        intro j hj hlt
        have := h (j + 1) (by simpa using Nat.succ_lt_succ hj) (by omega)
        simpa using this
      rw [buildIdxFrom]
      have hget : (f :: rest).get ⟨i1 + 1, hi⟩ = rest.get ⟨i1, hi1⟩ := rfl
      rw [hget, ih (mapSet m f n) (n + 1) i1 hi1 h1]
      congr 1
      omega

/-- C7: the index built from an explicit field-name list maps each name to
the position of its last occurrence — `names[i]` maps to `i` whenever no
later entry repeats that name, so a duplicated name is shadowed by its last
occurrence. -/
theorem buildIdx_last_wins (names : List String) (i : Nat) (hi : i < names.length)
    (h : ∀ j (hj : j < names.length), i < j → names.get ⟨j, hj⟩ ≠ names.get ⟨i, hi⟩) :
    mapGet (buildIdx names) (names.get ⟨i, hi⟩) = some i := by
  have := buildIdxFrom_last names [] 0 i hi h
  simpa using this

/-- Witness for `buildIdx_last_wins` on a list with a duplicate name: the
repeated name "a" resolves to its later position 2, not 0. -/
theorem buildIdx_last_wins_witness :
    mapGet (buildIdx ["a", "b", "a"]) (["a", "b", "a"].get ⟨2, by decide⟩) = some 2 :=
  buildIdx_last_wins ["a", "b", "a"] 2 (by decide)
    (by
      intro j hj hlt
      simp only [List.length_cons, List.length_nil] at hj
      omega)

/-- C10: pulling any number of elements from `Options.Rows` leaves the
`Options` value itself unchanged; in particular, with `FieldNames` nil the
header consumed from the stream is held only in a local, so `FieldNames`
is still nil afterwards. -/
theorem rows_leaves_options (o : Options) (ts : TokStream) :
    (o.RowsSt ts).2 = o ∧ (o.FieldNames = none → ((o.RowsSt ts).2).FieldNames = none) :=
  ⟨rfl, fun h => h⟩

/-- Witness for `rows_leaves_options` at a concrete header-bearing stream. -/
theorem rows_leaves_options_witness :
    ((Options.RowsSt
          { Comma := 44, Comment := 0, LazyQuotes := false, TrimLeadingSpace := false,
            FieldNames := none }
          ⟨[["a", "b"], ["1", "2"]], TermSig.eof⟩).2).FieldNames = none :=
  (rows_leaves_options _ _).2 rfl

/-- C5: `Row.Field` of a name not present in the index returns the empty
string and never fails, whatever the current record holds. -/
theorem field_unknown_name (r : Row) (name : String) (h : mapGet r.idx name = none) :
    r.Field name = Except.ok "" := by
  unfold Row.Field
  rw [h]

/-- Witness for `field_unknown_name` at a concrete row and unknown name. -/
theorem field_unknown_name_witness :
    Row.Field ⟨buildIdx ["a"], ["x"]⟩ "b" = Except.ok "" :=
  field_unknown_name _ "b" (by decide)

/-- A key `mapGet` finds is an entry of the association list. -/
theorem mapGet_mem (m : List (String × Nat)) (k : String) (v : Nat)
    (h : mapGet m k = some v) : (k, v) ∈ m := by
  induction m with
  | nil => simp [mapGet] at h
  | cons p rest ih =>
    rcases p with ⟨k1, v1⟩
    rw [mapGet] at h
    by_cases hk : k1 = k
    · rw [if_pos hk] at h
      obtain rfl : v1 = v := by simpa using h
      subst hk
      exact List.mem_cons_self _ _
    · rw [if_neg hk] at h
      exact List.mem_cons_of_mem _ (ih h)

/-- If any index entry points beyond the record's end, the `Fields` loop
panics with index out of range. -/
theorem fieldsLoop_bad (row : List String) (idx : List (String × Nat))
    (acc : List (String × String)) (h : ∃ p ∈ idx, row.length ≤ p.2) :
    fieldsLoop row idx acc = Except.error GoPanic.indexOutOfRange := by
  induction idx generalizing acc with
  | nil => simp at h
  | cons p rest ih =>
    rcases p with ⟨k, i⟩
    rw [fieldsLoop]
    cases hri : row[i]? with
    | none => rfl
    | some v =>
      rcases h with ⟨q, hq, hlq⟩
      rcases List.mem_cons.mp hq with heq | hq2
      · subst heq
        rw [List.getElem?_eq_none hlq] at hri
        cases hri
      · exact ih _ ⟨q, hq2, hlq⟩

/-- C3 as stated is false: with explicit names ["a", "b"] and the
single-field record ["x"], looking up "b" — a name mapping to a position the
record lacks — panics with index out of range in both `Row.Field` and
`Row.Fields`, instead of yielding an empty value. -/
theorem field_short_record_counterexample :
    Row.Field ⟨buildIdx ["a", "b"], ["x"]⟩ "b" = Except.error GoPanic.indexOutOfRange ∧
    Row.Field ⟨buildIdx ["a", "b"], ["x"]⟩ "b" ≠ Except.ok "" ∧
    Row.Fields ⟨buildIdx ["a", "b"], ["x"]⟩ = Except.error GoPanic.indexOutOfRange := by
  refine ⟨rfl, ?_, rfl⟩
  intro hcontra
  cases hcontra

/-- C3 amended: when the record is shorter than the index expects, a lookup
of a name mapping to a missing position is a Go index-out-of-range panic —
for `Row.Field` at that name, and for `Row.Fields` as a whole — rather than
an empty value. -/
theorem field_short_record_panics (r : Row) (name : String) (i : Nat)
    (h1 : mapGet r.idx name = some i) (h2 : r.row.length ≤ i) :
    r.Field name = Except.error GoPanic.indexOutOfRange ∧
    r.Fields = Except.error GoPanic.indexOutOfRange := by
  constructor
  · simp only [Row.Field, h1, List.getElem?_eq_none h2]
  · exact fieldsLoop_bad _ _ _ ⟨(name, i), mapGet_mem _ _ _ h1, h2⟩

/-- Witness for `field_short_record_panics` at a three-name index over a
two-field record. -/
theorem field_short_record_panics_witness :
    Row.Field ⟨buildIdx ["a", "b", "c"], ["x", "y"]⟩ "c" =
        Except.error GoPanic.indexOutOfRange ∧
      Row.Fields ⟨buildIdx ["a", "b", "c"], ["x", "y"]⟩ =
        Except.error GoPanic.indexOutOfRange :=
  field_short_record_panics _ "c" 2 (by decide) (by decide)

/-- C8: scanning into anything that is not a pointer to a struct panics
with the source's message — a fatal failure distinct from the recoverable
`GoError` class — for `Row.Scan` on every row, and for the streaming `Scan`
as soon as its row sequence yields anything, so the panic never appears as
an element of the yielded error sequence. -/
theorem scan_non_struct_panics (r : Row) (o : Options) (ts : TokStream) (v : GoValue)
    (h : v = GoValue.nonPtr ∨ v = GoValue.ptrToNonStruct) :
    Row.Scan r v = Except.error (GoPanic.message "must scan into pointer to struct") ∧
    (o.Rows ts ≠ [] →
      Options.Scan o ts v =
        Except.error (GoPanic.message "must scan into pointer to struct")) := by
  constructor
  · rcases h with rfl | rfl <;> rfl
  · intro hne
    unfold Options.Scan
    cases hrows : o.Rows ts with
    | nil => exact absurd hrows hne
    | cons item rest =>
      rcases h with rfl | rfl <;> cases item <;> rfl

/-- Witness for `scan_non_struct_panics` at a concrete row, stream and
non-pointer target. -/
theorem scan_non_struct_panics_witness :
    Row.Scan ⟨buildIdx ["a"], ["x"]⟩ GoValue.nonPtr =
      Except.error (GoPanic.message "must scan into pointer to struct") :=
  (scan_non_struct_panics ⟨buildIdx ["a"], ["x"]⟩
      { Comma := 44, Comment := 0, LazyQuotes := false, TrimLeadingSpace := false,
        FieldNames := none }
      ⟨[], TermSig.eof⟩ GoValue.nonPtr (Or.inl rfl)).1

/-- C4 fails on the code: when the very first pull of the row sequence
yields an error, `Scan` builds the binding plan before looking at that
error, passing the nil `*Row`; dereferencing `r.idx` through it is a Go
nil-pointer panic, so the error is never yielded.  Here: explicit field
names, a first read failing with "bad input", and a struct with one
eligible tagged field. -/
theorem scan_first_pull_error_panics :
    Options.Scan
        { Comma := 44, Comment := 0, LazyQuotes := false, TrimLeadingSpace := false,
          FieldNames := some ["a"] }
        ⟨[], TermSig.fail "bad input"⟩
        (GoValue.ptrToStruct [⟨true, true, "a", ""⟩]) =
      Except.error GoPanic.nilPointerDeref := rfl

/-- The per-field effect C9 claims, stated from the spec's words: a bound
field — exported, string-typed, tagged with a name the index knows —
receives the string at its recorded column index; every other field keeps
its prior value. -/
def specApplyField (idx : List (String × Nat)) (row : List String) (fld : SField) : SField :=
  if fld.exported = true ∧ fld.isString = true ∧ fld.tag ≠ "" then
    match mapGet idx fld.tag with
    | some k => { fld with value := row.getD k "" }
    | none => fld
  else fld

/-- A successful plan-build followed by a successful apply computes exactly
the per-field update of `specApplyField`. -/
theorem scanGo_fields_spec (r : Row) (s : List SField) (fi : List Int)
    (hb : buildFieldIdxFields (some r) s = Except.ok fi) :
    ∀ out, rowScanGo r.row s fi = Except.ok out →
      out = s.map (specApplyField r.idx r.row) := by
  induction s generalizing fi with
  | nil =>
    have hfi : fi = [] := by simpa [buildFieldIdxFields] using hb.symm
    subst hfi
    intro out hout
    have hout2 : out = [] := by simpa [rowScanGo] using hout.symm
    simp [hout2]
  | cons fld rest ih =>
    rw [buildFieldIdxFields] at hb
    by_cases h1 : fld.isString = false ∨ fld.exported = false
    · rw [if_pos h1] at hb
      cases hrest : buildFieldIdxFields (some r) rest with
      | error p => rw [hrest] at hb; cases hb
      | ok fi1 =>
        rw [hrest] at hb
        simp only [Except.ok.injEq] at hb
        subst hb
        intro out hout
        rw [rowScanGo, if_pos rfl] at hout
        cases hrec : rowScanGo r.row rest fi1 with
        | error p => rw [hrec] at hout; cases hout
        | ok out1 =>
          rw [hrec] at hout
          simp only [Except.ok.injEq] at hout
          subst hout
          have hcond : ¬(fld.exported = true ∧ fld.isString = true ∧ fld.tag ≠ "") := by
            rcases h1 with h1 | h1 <;> simp [h1]
          have hspec : specApplyField r.idx r.row fld = fld := by
            unfold specApplyField
            rw [if_neg hcond]
          rw [List.map_cons, hspec, ih fi1 hrest out1 hrec]
    · rw [if_neg h1] at hb
      have hs : fld.isString = true := by
        cases hb1 : fld.isString
        · exact absurd (Or.inl hb1) h1
        · rfl
      have he : fld.exported = true := by
        cases hb1 : fld.exported
        · exact absurd (Or.inr hb1) h1
        · rfl
      by_cases h2 : fld.tag = ""
      · rw [if_pos h2] at hb
        cases hrest : buildFieldIdxFields (some r) rest with
        | error p => rw [hrest] at hb; cases hb
        | ok fi1 =>
          rw [hrest] at hb
          simp only [Except.ok.injEq] at hb
          subst hb
          intro out hout
          rw [rowScanGo, if_pos rfl] at hout
          cases hrec : rowScanGo r.row rest fi1 with
          | error p => rw [hrec] at hout; cases hout
          | ok out1 =>
            rw [hrec] at hout
            simp only [Except.ok.injEq] at hout
            subst hout
            have hspec : specApplyField r.idx r.row fld = fld := by
              unfold specApplyField
              rw [if_neg (by simp [h2])]
            rw [List.map_cons, hspec, ih fi1 hrest out1 hrec]
      · rw [if_neg h2] at hb
        cases hget : mapGet r.idx fld.tag with
        | some k =>
          rw [hget] at hb
          cases hrest : buildFieldIdxFields (some r) rest with
          | error p => rw [hrest] at hb; cases hb
          | ok fi1 =>
            rw [hrest] at hb
            simp only [Except.ok.injEq] at hb
            subst hb
            intro out hout
            rw [rowScanGo, if_neg (by omega : ¬((k : Int) = -1))] at hout
            rw [show ((k : Int)).toNat = k from rfl] at hout
            cases hrk : r.row[k]? with
            | none => rw [hrk] at hout; cases hout
            | some v =>
              rw [hrk] at hout
              cases hrec : rowScanGo r.row rest fi1 with
              | error p => rw [hrec] at hout; cases hout
              | ok out1 =>
                rw [hrec] at hout
                simp only [Except.ok.injEq] at hout
                subst hout
                have hspec : specApplyField r.idx r.row fld = { fld with value := v } := by
                  unfold specApplyField
                  rw [if_pos ⟨he, hs, h2⟩, hget]
                  have hgd : r.row.getD k "" = v := by
                    rw [List.getD_eq_getElem?_getD, hrk]
                    rfl
                  simp [hgd, hrk]
                rw [List.map_cons, hspec, ih fi1 hrest out1 hrec]
        | none =>
          rw [hget] at hb
          cases hrest : buildFieldIdxFields (some r) rest with
          | error p => rw [hrest] at hb; cases hb
          | ok fi1 =>
            rw [hrest] at hb
            simp only [Except.ok.injEq] at hb
            subst hb
            intro out hout
            rw [rowScanGo, if_pos rfl] at hout
            cases hrec : rowScanGo r.row rest fi1 with
            | error p => rw [hrec] at hout; cases hout
            | ok out1 =>
              rw [hrec] at hout
              simp only [Except.ok.injEq] at hout
              subst hout
              have hspec : specApplyField r.idx r.row fld = fld := by
                unfold specApplyField
                rw [if_pos ⟨he, hs, h2⟩, hget]
              rw [List.map_cons, hspec, ih fi1 hrest out1 hrec]

/-- A struct with no bound field gets the all-(-1) binding plan. -/
theorem buildFieldIdx_unbound (r : Row) (s : List SField)
    (h : ∀ fld ∈ s, fld.exported = false ∨ fld.isString = false ∨ fld.tag = "" ∨
      mapGet r.idx fld.tag = none) :
    buildFieldIdxFields (some r) s = Except.ok (s.map (fun _ => (-1 : Int))) := by
  induction s with
  | nil => rfl
  | cons fld rest ih =>
    have hrest := ih (fun g hg => h g (List.mem_cons_of_mem _ hg))
    have hfld := h fld (List.mem_cons_self _ _)
    rw [buildFieldIdxFields]
    by_cases h1 : fld.isString = false ∨ fld.exported = false
    · rw [if_pos h1, hrest]
      simp
    · rw [if_neg h1]
      have hs : fld.isString = true := by
        cases hb1 : fld.isString
        · exact absurd (Or.inl hb1) h1
        · rfl
      have he : fld.exported = true := by
        cases hb1 : fld.exported
        · exact absurd (Or.inr hb1) h1
        · rfl
      have htag : fld.tag = "" ∨ mapGet r.idx fld.tag = none := by
        rcases hfld with hf | hf | hf | hf
        · rw [he] at hf; cases hf
        · rw [hs] at hf; cases hf
        · exact Or.inl hf
        · exact Or.inr hf
      rcases htag with hf | hf
      · rw [if_pos hf, hrest]
        simp
      · have h2 : ¬(fld.tag = "") ∨ fld.tag = "" := (em _).symm
        by_cases h3 : fld.tag = ""
        · rw [if_pos h3, hrest]
          simp
        · rw [if_neg h3]
          simp only [hf, hrest]
          simp

/-- Applying an all-(-1) binding plan touches nothing and cannot fail. -/
theorem rowScanGo_all_skip (row : List String) (s : List SField) :
    rowScanGo row s (s.map (fun _ => (-1 : Int))) = Except.ok s := by
  induction s with
  | nil => rfl
  | cons fld rest ih =>
    rw [List.map_cons, rowScanGo, if_pos rfl, ih]

/-- `Row.Scan` on a struct pointer is the plan build followed by the apply. -/
theorem Scan_ptrToStruct (r : Row) (s : List SField) :
    Row.Scan r (GoValue.ptrToStruct s) =
      match buildFieldIdxFields (some r) s with
      | Except.error p => Except.error p
      | Except.ok fi => r.scan s fi := by
  cases hb : buildFieldIdxFields (some r) s with
  | error p => simp [Row.Scan, buildFieldIdxV, hb]
  | ok fi => simp [Row.Scan, buildFieldIdxV, hb]

/-- C9: a successful `Row.Scan` into a struct pointer sets exactly the bound
fields — exported, string-typed, tagged with a name known to the index — to
the string at their recorded column index, and leaves every other field
(untagged, non-string, non-exported, or tagged with an absent name) with its
prior value; a struct with no bound field at all is scanned successfully and
left untouched, which is not an error. -/
theorem row_scan_bound_only (r : Row) (s : List SField) :
    (∀ out, Row.Scan r (GoValue.ptrToStruct s) = Except.ok out →
        out = s.map (specApplyField r.idx r.row)) ∧
    ((∀ fld ∈ s, fld.exported = false ∨ fld.isString = false ∨ fld.tag = "" ∨
        mapGet r.idx fld.tag = none) →
      Row.Scan r (GoValue.ptrToStruct s) = Except.ok s) := by
  constructor
  · intro out hout
    rw [Scan_ptrToStruct] at hout
    cases hb : buildFieldIdxFields (some r) s with
    | error p => rw [hb] at hout; cases hout
    | ok fi =>
      rw [hb] at hout
      exact scanGo_fields_spec r s fi hb out (by simpa [Row.scan] using hout)
  · intro h
    rw [Scan_ptrToStruct, buildFieldIdx_unbound r s h]
    simpa [Row.scan] using rowScanGo_all_skip r.row s

/-- Witness for `row_scan_bound_only`: scanning the row (a=1, b=2) into a
struct with one bound field (tag "b") and four unbound fields updates only
the bound field. -/
theorem row_scan_bound_only_witness :
    ([⟨true, true, "b", "2"⟩, ⟨true, true, "", "keep"⟩, ⟨true, false, "a", "n"⟩,
        ⟨false, true, "a", "x"⟩, ⟨true, true, "z", "w"⟩] : List SField) =
      ([⟨true, true, "b", ""⟩, ⟨true, true, "", "keep"⟩, ⟨true, false, "a", "n"⟩,
          ⟨false, true, "a", "x"⟩, ⟨true, true, "z", "w"⟩] : List SField).map
        (specApplyField (buildIdx ["a", "b"]) ["1", "2"]) :=
  (row_scan_bound_only ⟨buildIdx ["a", "b"], ["1", "2"]⟩ _).1 _ rfl

/-- An entry of `mapSet m k v` is the new pair or an entry of `m`. -/
theorem mapSet_mem (m : List (String × Nat)) (k : String) (v : Nat) :
    ∀ p ∈ mapSet m k v, p = (k, v) ∨ p ∈ m := by
  induction m with
  | nil => simp [mapSet]
  | cons q rest ih =>
    rcases q with ⟨k1, v1⟩
    intro p hp
    rw [mapSet] at hp
    by_cases hk : k1 = k
    · rw [if_pos hk] at hp
      rcases List.mem_cons.mp hp with heq | hmem
      · exact Or.inl heq
      · exact Or.inr (List.mem_cons_of_mem _ hmem)
    · rw [if_neg hk] at hp
      rcases List.mem_cons.mp hp with heq | hmem
      · exact Or.inr (heq ▸ List.mem_cons_self _ _)
      · rcases ih p hmem with h1 | h1
        · exact Or.inl h1
        · exact Or.inr (List.mem_cons_of_mem _ h1)

/-- An entry of the index-building loop comes from the seed map or records a
position in the range covered by the loop. -/
theorem buildIdxFrom_mem (names : List String) :
    ∀ (m : List (String × Nat)) (n : Nat) (p : String × Nat),
      p ∈ buildIdxFrom m n names → p ∈ m ∨ (n ≤ p.2 ∧ p.2 < n + names.length) := by
  induction names with
  | nil =>
    intro m n p hp
    exact Or.inl hp
  | cons f rest ih =>
    intro m n p hp
    rw [buildIdxFrom] at hp
    rcases ih (mapSet m f n) (n + 1) p hp with h1 | h1
    · rcases mapSet_mem m f n p h1 with h2 | h2
      · right
        rw [h2]
        simp
      · exact Or.inl h2
    · right
      simp only [List.length_cons]
      omega

/-- Every position recorded in `buildIdx names` is within `names.length`. -/
theorem buildIdx_pos (names : List String) (p : String × Nat) (hp : p ∈ buildIdx names) :
    p.2 < names.length := by
  rcases buildIdxFrom_mem names [] 0 p hp with h1 | h1
  · simp at h1
  · omega

/-- The `Fields` loop succeeds whenever every index position is in range. -/
theorem fieldsLoop_ok (row : List String) :
    ∀ (idx : List (String × Nat)) (acc : List (String × String)),
      (∀ p ∈ idx, p.2 < row.length) → ∃ m, fieldsLoop row idx acc = Except.ok m := by
  intro idx
  induction idx with
  | nil =>
    intro acc hpos
    exact ⟨acc, rfl⟩
  | cons q rest ih =>
    rcases q with ⟨k, i⟩
    intro acc hpos
    have hi : i < row.length := hpos (k, i) (List.mem_cons_self _ _)
    obtain ⟨m, hm⟩ := ih (acc ++ [(k, row[i])])
      (fun p hp => hpos p (List.mem_cons_of_mem _ hp))
    refine ⟨m, ?_⟩
    rw [fieldsLoop, List.getElem?_eq_getElem hi]
    exact hm

/-- The `ReadAll` loop over N good rows followed by a failure drops the
accumulated maps and reports the error alone. -/
theorem readAllLoop_rows_fail (names : List String) (e : GoError) :
    ∀ (recs : List (List String)) (acc : List (List (String × String))),
      (∀ rcd ∈ recs, names.length ≤ rcd.length) →
      readAllLoop
          (recs.map (fun rcd => RowsItem.row ⟨buildIdx names, rcd⟩) ++ [RowsItem.fail e]) acc =
        Except.ok (Except.error e) := by
  intro recs
  induction recs with
  | nil =>
    intro acc hlen
    rfl
  | cons rcd rest ih =>
    intro acc hlen
    have hpos : ∀ p ∈ buildIdx names, p.2 < rcd.length := fun p hp =>
      lt_of_lt_of_le (buildIdx_pos names p hp) (hlen rcd (List.mem_cons_self _ _))
    obtain ⟨m, hm⟩ := fieldsLoop_ok rcd (buildIdx names) [] hpos
    rw [List.map_cons, List.cons_append, readAllLoop]
    have hfields : Row.Fields ⟨buildIdx names, rcd⟩ = Except.ok m := hm
    rw [hfields]
    exact ih (acc ++ [m]) (fun r hr => hlen r (List.mem_cons_of_mem _ hr))

/-- The plan build never fails when the receiver row is non-nil. -/
theorem buildFieldIdxFields_some_ok (r : Row) (s : List SField) :
    ∃ fi, buildFieldIdxFields (some r) s = Except.ok fi ∧ fi.length = s.length := by
  induction s with
  | nil => exact ⟨[], rfl, rfl⟩
  | cons fld rest ih =>
    obtain ⟨fi1, hfi1, hlen1⟩ := ih
    rw [buildFieldIdxFields]
    by_cases h1 : fld.isString = false ∨ fld.exported = false
    · rw [if_pos h1, hfi1]
      exact ⟨-1 :: fi1, rfl, by simp [hlen1]⟩
    · rw [if_neg h1]
      by_cases h2 : fld.tag = ""
      · rw [if_pos h2, hfi1]
        exact ⟨-1 :: fi1, rfl, by simp [hlen1]⟩
      · rw [if_neg h2]
        cases hget : mapGet r.idx fld.tag with
        | some k =>
          rw [hfi1]
          exact ⟨(k : Int) :: fi1, rfl, by simp [hlen1]⟩
        | none =>
          rw [hfi1]
          exact ⟨-1 :: fi1, rfl, by simp [hlen1]⟩

/-- Every entry of a built plan is `-1` or a position recorded in the index. -/
theorem buildFieldIdxFields_entries (r : Row) (B : Nat) (hB : ∀ p ∈ r.idx, p.2 < B) :
    ∀ (s : List SField) (fi : List Int), buildFieldIdxFields (some r) s = Except.ok fi →
      ∀ c ∈ fi, c = -1 ∨ c.toNat < B := by
  intro s
  induction s with
  | nil =>
    intro fi hfi c hc
    have : fi = [] := by simpa [buildFieldIdxFields] using hfi.symm
    subst this
    simp at hc
  | cons fld rest ih =>
    intro fi hfi c hc
    rw [buildFieldIdxFields] at hfi
    by_cases h1 : fld.isString = false ∨ fld.exported = false
    · rw [if_pos h1] at hfi
      cases hrest : buildFieldIdxFields (some r) rest with
      | error p => rw [hrest] at hfi; cases hfi
      | ok fi1 =>
        rw [hrest] at hfi
        simp only [Except.ok.injEq] at hfi
        subst hfi
        rcases List.mem_cons.mp hc with rfl | hmem
        · exact Or.inl rfl
        · exact ih fi1 hrest c hmem
    · rw [if_neg h1] at hfi
      by_cases h2 : fld.tag = ""
      · rw [if_pos h2] at hfi
        cases hrest : buildFieldIdxFields (some r) rest with
        | error p => rw [hrest] at hfi; cases hfi
        | ok fi1 =>
          rw [hrest] at hfi
          simp only [Except.ok.injEq] at hfi
          subst hfi
          rcases List.mem_cons.mp hc with rfl | hmem
          · exact Or.inl rfl
          · exact ih fi1 hrest c hmem
      · rw [if_neg h2] at hfi
        cases hget : mapGet r.idx fld.tag with
        | some k =>
          rw [hget] at hfi
          cases hrest : buildFieldIdxFields (some r) rest with
          | error p => rw [hrest] at hfi; cases hfi
          | ok fi1 =>
            rw [hrest] at hfi
            simp only [Except.ok.injEq] at hfi
            subst hfi
            rcases List.mem_cons.mp hc with rfl | hmem
            · right
              have hk := hB (fld.tag, k) (mapGet_mem _ _ _ hget)
              simpa using hk
            · exact ih fi1 hrest c hmem
        | none =>
          rw [hget] at hfi
          cases hrest : buildFieldIdxFields (some r) rest with
          | error p => rw [hrest] at hfi; cases hfi
          | ok fi1 =>
            rw [hrest] at hfi
            simp only [Except.ok.injEq] at hfi
            subst hfi
            rcases List.mem_cons.mp hc with rfl | hmem
            · exact Or.inl rfl
            · exact ih fi1 hrest c hmem

/-- Applying a plan whose live entries are in range succeeds and preserves
the field count. -/
theorem rowScanGo_ok (row : List String) :
    ∀ (fi : List Int) (s : List SField),
      (∀ c ∈ fi, c = -1 ∨ c.toNat < row.length) → fi.length ≤ s.length →
      ∃ out, rowScanGo row s fi = Except.ok out ∧ out.length = s.length := by
  intro fi
  induction fi with
  | nil =>
    intro s hin hlen
    refine ⟨s, ?_, rfl⟩
    cases s <;> rfl
  | cons c fi1 ih =>
    intro s hin hlen
    cases s with
    | nil => simp at hlen
    | cons fld s1 =>
      have hlen1 : fi1.length ≤ s1.length := by simpa using hlen
      have hin1 : ∀ d ∈ fi1, d = -1 ∨ d.toNat < row.length := fun d hd =>
        hin d (List.mem_cons_of_mem _ hd)
      obtain ⟨out1, hout1, hln⟩ := ih s1 hin1 hlen1
      by_cases hc : c = -1
      · subst hc
        refine ⟨fld :: out1, ?_, by simp [hln]⟩
        rw [rowScanGo, if_pos rfl, hout1]
      · have hcr : c.toNat < row.length := by
          rcases hin c (List.mem_cons_self _ _) with h1 | h1
          · exact absurd h1 hc
          · exact h1
        refine ⟨{ fld with value := row[c.toNat] } :: out1, ?_, by simp [hln]⟩
        rw [rowScanGo, if_neg hc, List.getElem?_eq_getElem hcr, hout1]

/-- After the plan is built, a run of good rows ending in a read failure
yields a nil error per row and then the failure, exactly once. -/
theorem scanItemsSome_ok (names : List String) (e : GoError) (fi : List Int)
    (hfi : ∀ c ∈ fi, c = -1 ∨ c.toNat < names.length) :
    ∀ (recs : List (List String)) (s : List SField),
      (∀ rcd ∈ recs, names.length ≤ rcd.length) → fi.length ≤ s.length →
      ∃ pairs last,
        scanItemsSome fi s
            (recs.map (fun rcd => RowsItem.row ⟨buildIdx names, rcd⟩) ++ [RowsItem.fail e]) =
          Except.ok (pairs ++ [(some e, last)]) ∧ ∀ p ∈ pairs, p.1 = none := by
  intro recs
  induction recs with
  | nil =>
    intro s hlen hsl
    exact ⟨[], s, rfl, by simp⟩
  | cons rcd rest ih =>
    intro s hlen hsl
    have hrl : names.length ≤ rcd.length := hlen rcd (List.mem_cons_self _ _)
    have hin : ∀ c ∈ fi, c = -1 ∨ c.toNat < rcd.length := by
      intro c hc
      rcases hfi c hc with h1 | h1
      · exact Or.inl h1
      · exact Or.inr (lt_of_lt_of_le h1 hrl)
    obtain ⟨s1, hs1, hsl1⟩ := rowScanGo_ok rcd fi s hin hsl
    obtain ⟨pairs1, last, hrun, hnone⟩ :=
      ih s1 (fun r hr => hlen r (List.mem_cons_of_mem _ hr)) (hsl1 ▸ hsl)
    refine ⟨(none, s1) :: pairs1, last, ?_, ?_⟩
    · rw [List.map_cons, List.cons_append, scanItemsSome]
      have hscan : Row.scan ⟨buildIdx names, rcd⟩ s fi = Except.ok s1 := hs1
      simp only [hscan, hrun, List.cons_append]
    · intro p hp
      rcases List.mem_cons.mp hp with rfl | hmem
      · rfl
      · exact hnone p hmem

/-- Collecting a run of nil errors that ends in a failure returns the
failure alone. -/
theorem scanAllCollect_fail (e : GoError) (last : List SField) :
    ∀ pairs, (∀ p ∈ pairs, p.1 = none) →
      scanAllCollect (pairs ++ [(some e, last)]) = Except.error e := by
  intro pairs
  induction pairs with
  | nil => intro hnone; rfl
  | cons p rest ih =>
    intro hnone
    rcases p with ⟨perr, ps⟩
    have hp : perr = none := hnone (perr, ps) (List.mem_cons_self _ _)
    subst hp
    rw [List.cons_append, scanAllCollect, ih (fun q hq => hnone q (List.mem_cons_of_mem _ hq))]

/-- `FieldReader.Scan` in the steady state over a non-empty stream: reads
the next record, keeps (or installs) the index, and clears the error. -/
theorem frScan_inv_cons (names : List String) (f : FieldReader) (rcd : List String)
    (rest : List (List String)) (fin : TermSig) (hfn : f.FieldNames = some names)
    (hidx : f.idx = none ∨ f.idx = some (buildIdx names)) (hfe : f.err = none) :
    FieldReader.Scan f ⟨rcd :: rest, fin⟩ =
      (true, { f with idx := some (buildIdx names), row := rcd, err := none }, ⟨rest, fin⟩) := by
  rcases hidx with hidx | hidx <;>
    simp [FieldReader.Scan, frScanAfterNames, tokRead, hfn, hidx, hfe]

/-- `FieldReader.Scan` in the steady state at an exhausted failing stream:
records the failure and returns false. -/
theorem frScan_inv_nil (names : List String) (e : GoError) (f : FieldReader)
    (hfn : f.FieldNames = some names)
    (hidx : f.idx = none ∨ f.idx = some (buildIdx names)) (hfe : f.err = none) :
    FieldReader.Scan f ⟨[], TermSig.fail e⟩ =
      (false,
        { f with idx := some (buildIdx names), row := [], err := some (ReadErr.other e) },
        ⟨[], TermSig.fail e⟩) := by
  rcases hidx with hidx | hidx <;>
    simp [FieldReader.Scan, frScanAfterNames, tokRead, hfn, hidx, hfe]

/-- The `FieldReader.ReadAll` loop over a failing stream keeps every map
accumulated before the failure — one per record — and ends with the sticky
error set. -/
theorem frReadAllLoop_run (names : List String) (e : GoError) :
    ∀ (recs : List (List String)) (f : FieldReader) (acc : List (List (String × String))),
      f.FieldNames = some names → (f.idx = none ∨ f.idx = some (buildIdx names)) →
      f.err = none → (∀ rcd ∈ recs, names.length ≤ rcd.length) →
      ∃ maps fend tsend,
        frReadAllLoop f ⟨recs, TermSig.fail e⟩ acc = (Except.ok (acc ++ maps), fend, tsend) ∧
        maps.length = recs.length ∧ fend.err = some (ReadErr.other e) := by
  intro recs
  induction recs with
  | nil =>
    intro f acc hfn hidx hfe hlen
    have hscan := frScan_inv_nil names e f hfn hidx hfe
    rw [frReadAllLoop.eq_def]
    split
    next f1 ts1 heq =>
      rw [hscan] at heq
      simp at heq
    next f1 ts1 heq =>
      rw [hscan] at heq
      simp only [Prod.mk.injEq, true_and] at heq
      refine ⟨[], f1, ts1, by simp, rfl, ?_⟩
      rw [← heq.1]
  | cons rcd rest ih =>
    intro f acc hfn hidx hfe hlen
    have hscan := frScan_inv_cons names f rcd rest (TermSig.fail e) hfn hidx hfe
    have hrl : names.length ≤ rcd.length := hlen rcd (List.mem_cons_self _ _)
    have hpos : ∀ p ∈ buildIdx names, p.2 < rcd.length := fun p hp =>
      lt_of_lt_of_le (buildIdx_pos names p hp) hrl
    obtain ⟨m, hm⟩ := fieldsLoop_ok rcd (buildIdx names) [] hpos
    rw [frReadAllLoop.eq_def]
    split
    next f1 ts1 heq =>
      rw [hscan] at heq
      simp only [Prod.mk.injEq, true_and] at heq
      obtain ⟨hf1, hts1⟩ := heq
      subst hf1
      subst hts1
      have hfields : FieldReader.Fields
          { f with idx := some (buildIdx names), row := rcd, err := none } = Except.ok m := by
        unfold FieldReader.Fields
        simpa using hm
      simp only [hfields]
      obtain ⟨maps1, fend, tsend, hrun, hlen1, herr⟩ :=
        ih { f with idx := some (buildIdx names), row := rcd, err := none } (acc ++ [m])
          (by simp [hfn]) (Or.inr (by simp)) (by simp)
          (fun r hr => hlen r (List.mem_cons_of_mem _ hr))
      refine ⟨m :: maps1, fend, tsend, ?_, by simp [hlen1], herr⟩
      rw [hrun]
      simp
    next f1 ts1 heq =>
      rw [hscan] at heq
      simp at heq

/-- C2 amended: with explicit field names, on a stream whose read fails
after its data records, `Options.ReadAll` and `ScanAll` discard the rows
accumulated before the failure and return the error alone, but
`FieldReader.ReadAll` does not — it returns the maps of every record read
before the failure (one per record) together with the error. -/
theorem batch_error_allornothing (names : List String) (rcd0 : List String)
    (recs : List (List String)) (e : GoError) (o : Options) (s0 : List SField)
    (f : FieldReader) (ho : o.FieldNames = some names) (hfn : f.FieldNames = some names)
    (hidx : f.idx = none) (hfe : f.err = none)
    (hlen : ∀ rcd ∈ rcd0 :: recs, names.length ≤ rcd.length) :
    Options.ReadAll o ⟨rcd0 :: recs, TermSig.fail e⟩ = Except.ok (Except.error e) ∧
    ScanAll o ⟨rcd0 :: recs, TermSig.fail e⟩ s0 = Except.ok (Except.error e) ∧
    (∃ maps, FieldReader.ReadAll f ⟨rcd0 :: recs, TermSig.fail e⟩ =
        Except.ok (maps, some e) ∧ maps.length = (rcd0 :: recs).length) := by
  have hrows : Options.Rows o ⟨rcd0 :: recs, TermSig.fail e⟩ =
      RowsItem.row ⟨buildIdx names, rcd0⟩ ::
        (recs.map (fun rcd => RowsItem.row ⟨buildIdx names, rcd⟩) ++ [RowsItem.fail e]) := by
    show Options.Rows o ⟨rcd0 :: recs, TermSig.fail e⟩ = _
    unfold Options.Rows
    rw [ho]
    show rowsLoop (buildIdx names) (rcd0 :: recs) (TermSig.fail e) = _
    rw [rowsLoop_fail, List.map_cons, List.cons_append]
  refine ⟨?_, ?_, ?_⟩
  · unfold Options.ReadAll
    rw [hrows]
    have h2 := readAllLoop_rows_fail names e (rcd0 :: recs) [] hlen
    rw [List.map_cons, List.cons_append] at h2
    exact h2
  · obtain ⟨fi0, hfi0, hfl⟩ := buildFieldIdxFields_some_ok ⟨buildIdx names, rcd0⟩ s0
    have hent : ∀ c ∈ fi0, c = -1 ∨ c.toNat < names.length :=
      buildFieldIdxFields_entries ⟨buildIdx names, rcd0⟩ names.length
        (fun p hp => buildIdx_pos names p hp) s0 fi0 hfi0
    have hrl : names.length ≤ rcd0.length := hlen rcd0 (List.mem_cons_self _ _)
    have hin : ∀ c ∈ fi0, c = -1 ∨ c.toNat < rcd0.length := by
      intro c hc
      rcases hent c hc with h1 | h1
      · exact Or.inl h1
      · exact Or.inr (lt_of_lt_of_le h1 hrl)
    obtain ⟨s1, hs1, hsl1⟩ := rowScanGo_ok rcd0 fi0 s0 hin (le_of_eq hfl)
    obtain ⟨pairs, last, hrun, hnone⟩ := scanItemsSome_ok names e fi0 hent recs s1
      (fun r hr => hlen r (List.mem_cons_of_mem _ hr)) (hfl.trans hsl1.symm).le
    have hbv : buildFieldIdxV (some ⟨buildIdx names, rcd0⟩) (GoValue.ptrToStruct s0) =
        Except.ok (s0, fi0) := by
      simp only [buildFieldIdxV]
      rw [hfi0]
    have hscan1 : Row.scan ⟨buildIdx names, rcd0⟩ s0 fi0 = Except.ok s1 := hs1
    have hcol := scanAllCollect_fail e last ((none, s1) :: pairs) (by
      intro p hp
      rcases List.mem_cons.mp hp with rfl | hmem
      · rfl
      · exact hnone p hmem)
    unfold ScanAll Options.Scan
    rw [hrows, scanItemsNone]
    simp only [hbv, hscan1, hrun, List.cons_append] at hcol ⊢
    rw [hcol]
  · obtain ⟨maps, fend, tsend, hrun, hlenm, herr⟩ :=
      frReadAllLoop_run names e (rcd0 :: recs) f [] hfn (Or.inl hidx) hfe hlen
    refine ⟨maps, ?_, hlenm⟩
    unfold FieldReader.ReadAll
    rw [hrun]
    have hE : fend.Err = some e := by
      unfold FieldReader.Err
      rw [herr]
    simp [hE]

/-- C2 as stated is false for `FieldReader.ReadAll`: with explicit names
(a, b), one good record (1, 2), and a read failing afterwards with
"bad line", it returns the accumulated row map together with the error —
not the error alone with no partial result. -/
theorem fr_readall_partial_counterexample :
    FieldReader.ReadAll
        { Comma := 44, Comment := 0, LazyQuotes := false, TrimLeadingSpace := false,
          FieldNames := some ["a", "b"], idx := none, row := [], err := none }
        ⟨[["1", "2"]], TermSig.fail "bad line"⟩ =
      Except.ok ([[("a", "1"), ("b", "2")]], some "bad line") := by
  have hs : FieldReader.Scan
      { Comma := 44, Comment := 0, LazyQuotes := false, TrimLeadingSpace := false,
        FieldNames := some ["a", "b"], idx := none, row := [], err := none }
      ⟨[["1", "2"]], TermSig.fail "bad line"⟩ =
      (true,
        { Comma := 44, Comment := 0, LazyQuotes := false, TrimLeadingSpace := false,
          FieldNames := some ["a", "b"], idx := some (buildIdx ["a", "b"]),
          row := ["1", "2"], err := none },
        ⟨[], TermSig.fail "bad line"⟩) := rfl
  have hs2 : FieldReader.Scan
      { Comma := 44, Comment := 0, LazyQuotes := false, TrimLeadingSpace := false,
        FieldNames := some ["a", "b"], idx := some (buildIdx ["a", "b"]),
        row := ["1", "2"], err := none }
      ⟨[], TermSig.fail "bad line"⟩ =
      (false,
        { Comma := 44, Comment := 0, LazyQuotes := false, TrimLeadingSpace := false,
          FieldNames := some ["a", "b"], idx := some (buildIdx ["a", "b"]),
          row := [], err := some (ReadErr.other "bad line") },
        ⟨[], TermSig.fail "bad line"⟩) := rfl
  have hfields : FieldReader.Fields
      { Comma := 44, Comment := 0, LazyQuotes := false, TrimLeadingSpace := false,
        FieldNames := some ["a", "b"], idx := some (buildIdx ["a", "b"]),
        row := ["1", "2"], err := none } =
      Except.ok [("a", "1"), ("b", "2")] := rfl
  have step2 : frReadAllLoop
      { Comma := 44, Comment := 0, LazyQuotes := false, TrimLeadingSpace := false,
        FieldNames := some ["a", "b"], idx := some (buildIdx ["a", "b"]),
        row := ["1", "2"], err := none }
      ⟨[], TermSig.fail "bad line"⟩ [[("a", "1"), ("b", "2")]] =
      (Except.ok [[("a", "1"), ("b", "2")]],
        { Comma := 44, Comment := 0, LazyQuotes := false, TrimLeadingSpace := false,
          FieldNames := some ["a", "b"], idx := some (buildIdx ["a", "b"]),
          row := [], err := some (ReadErr.other "bad line") },
        ⟨[], TermSig.fail "bad line"⟩) := by
    rw [frReadAllLoop.eq_def]
    split
    next f1 ts1 heq =>
      rw [hs2] at heq
      simp at heq
    next f1 ts1 heq =>
      rw [hs2] at heq
      simp only [Prod.mk.injEq, true_and] at heq
      obtain ⟨hf1, hts1⟩ := heq
      subst hf1
      subst hts1
      rfl
  have step1 : frReadAllLoop
      { Comma := 44, Comment := 0, LazyQuotes := false, TrimLeadingSpace := false,
        FieldNames := some ["a", "b"], idx := none, row := [], err := none }
      ⟨[["1", "2"]], TermSig.fail "bad line"⟩ [] =
      (Except.ok [[("a", "1"), ("b", "2")]],
        { Comma := 44, Comment := 0, LazyQuotes := false, TrimLeadingSpace := false,
          FieldNames := some ["a", "b"], idx := some (buildIdx ["a", "b"]),
          row := [], err := some (ReadErr.other "bad line") },
        ⟨[], TermSig.fail "bad line"⟩) := by
    rw [frReadAllLoop.eq_def]
    split
    next f1 ts1 heq =>
      rw [hs] at heq
      simp only [Prod.mk.injEq, true_and] at heq
      obtain ⟨hf1, hts1⟩ := heq
      subst hf1
      subst hts1
      simp only [hfields, List.nil_append]
      exact step2
    next f1 ts1 heq =>
      rw [hs] at heq
      simp at heq
  unfold FieldReader.ReadAll
  rw [step1]
  rfl

/-- Witness for `batch_error_allornothing` at a concrete one-record failing
stream. -/
theorem batch_error_allornothing_witness :
    Options.ReadAll
          { Comma := 44, Comment := 0, LazyQuotes := false, TrimLeadingSpace := false,
            FieldNames := some ["a", "b"] }
          ⟨[["1", "2"]], TermSig.fail "bad line"⟩ =
        Except.ok (Except.error "bad line") ∧
      ScanAll
          { Comma := 44, Comment := 0, LazyQuotes := false, TrimLeadingSpace := false,
            FieldNames := some ["a", "b"] }
          ⟨[["1", "2"]], TermSig.fail "bad line"⟩ [⟨true, true, "a", ""⟩] =
        Except.ok (Except.error "bad line") ∧
      (∃ maps,
        FieldReader.ReadAll
            { Comma := 44, Comment := 0, LazyQuotes := false, TrimLeadingSpace := false,
              FieldNames := some ["a", "b"], idx := none, row := [], err := none }
            ⟨[["1", "2"]], TermSig.fail "bad line"⟩ =
          Except.ok (maps, some "bad line") ∧ maps.length = [["1", "2"]].length) :=
  batch_error_allornothing ["a", "b"] ["1", "2"] [] "bad line" _ _ _ rfl rfl rfl rfl
    (by
      intro rcd hr
      simp at hr
      rw [hr]
      decide)

end CsvSpec
